import Mathlib

/-!
# Verification of the OTU clustering core (`agc/agc.py`)

Shallow embedding of the dereplication + abundance-greedy-clustering core:

* `read_fasta` — the reader's filter over the stream of record sequences
  (each record is the concatenation of its body lines; the reader yields a
  record iff it is non-empty and at least `minseqlen` long).
* `counter` — `collections.Counter` over a list: distinct keys in
  first-occurrence order, each paired with its multiplicity.
* `dereplication_fulllength` — count, filter by `mincount`, sort by count
  descending.  Python's `sorted` is a stable sort; a stable sort is uniquely
  determined by the key and the input order, so we embed it as
  `List.insertionSort` (stable, structurally recursive).
* `get_identity` — percent identity of two gap-padded strings.  Python float
  division is modelled exactly over `ℚ` (at the threshold values that matter
  here, `count/min*100` is exact in double precision as well).  Python raises
  `ZeroDivisionError` when `min = 0`; in `ℚ` the division is total with
  `x / 0 = 0` — the safety claim shows the zero case is never reached.
* `compareLoop` / `agcStep` / `otu_clustering` / `abundance_greedy_clustering`
  — the greedy clusterer: `compareLoop` is the inner `for`-loop with its
  `break` (first representative whose identity exceeds 97 rejects the
  candidate), `agcStep` the body of the outer loop, and the clusterer a left
  fold over the candidate list starting from the empty OTU list.

The external alignment provider (`nwalign3.global_align`) is modelled as an
abstract function parameter of type `Aligner`.
-/

set_option linter.unusedVariables false
set_option maxRecDepth 8000

namespace AGC

/-- The Alignment Provider interface: from two raw sequences, produce the two
gap-padded aligned strings (`nw.global_align` in the source). -/
abbrev Aligner := String → String → String × String

/-- `sum(1 for a, b in zip(alignment_list[0], alignment_list[1]) if a == b)`
(line 126 of `agc.py`): the number of positions, over the zipped prefix,
where the two padded strings carry the same character. -/
def matchCount (s0 s1 : String) : Nat :=
  List.countP (fun p => p.1 == p.2) (s0.data.zip s1.data)

/-- `get_identity` (lines 120–129 of `agc.py`): the match count divided by
`min(len(alignment_list[0]), len(alignment_list[1]))` — the shorter of the two
*padded* strings — times 100. -/
def get_identity (s0 s1 : String) : ℚ :=
  ((matchCount s0 s1 : ℚ) / ((min s0.length s1.length : Nat) : ℚ)) * 100

/-- The reader's filter (lines 93 and 98 of `agc.py`): a record sequence is
yielded iff it is non-empty (`if sequence`) and `len(sequence) >= minseqlen`.
The input is the stream of record sequences, each record already being the
concatenation of its body lines (the file decompression/line splitting is the
external Sequence Reader). -/
def read_fasta (seqs : List String) (minseqlen : Nat) : List String :=
  seqs.filter (fun s => !(s == "") && decide (minseqlen ≤ s.length))

/-- The distinct elements of a list in first-occurrence order: the key order
of a Python `collections.Counter` built by a single left-to-right pass. -/
def firstOccKeys : List String → List String
  | [] => []
  | s :: rest => s :: (firstOccKeys rest).filter (fun t => !(t == s))

/-- `Counter(sequence_list).items()` (line 112 of `agc.py`): the distinct
sequences in first-insertion order, each paired with its multiplicity in the
list. -/
def counter (xs : List String) : List (String × Nat) :=
  (firstOccKeys xs).map (fun s => (s, xs.count s))

/-- The comparison key of `sorted(..., key=lambda item: item[1], reverse=True)`
(line 115 of `agc.py`): `a` may precede `b` iff `b`'s count is at most `a`'s. -/
def countGE (a b : String × Nat) : Prop := b.2 ≤ a.2

instance : DecidableRel countGE := fun a b => Nat.decLe b.2 a.2

instance : IsTotal (String × Nat) countGE := ⟨fun a b => le_total b.2 a.2⟩

instance : IsTrans (String × Nat) countGE := ⟨fun _ _ _ h1 h2 => le_trans h2 h1⟩

/-- `dereplication_fulllength` (lines 103–117 of `agc.py`): count the filtered
sequences, keep those with `count >= mincount` (dict comprehensions preserve
order), and sort by count descending.  Python's `sorted` is stable; any stable
sort with the same key produces the same list, so `List.insertionSort` (which
is stable) is a faithful embedding. -/
def dereplication_fulllength (seqs : List String) (minseqlen mincount : Nat) :
    List (String × Nat) :=
  List.insertionSort countGE
    ((counter (read_fasta seqs minseqlen)).filter (fun p => decide (mincount ≤ p.2)))

/-- The inner loop of `abundance_greedy_clustering` (lines 149–157 of
`agc.py`): walk the existing representatives oldest-first; on the first one
whose identity with the candidate exceeds 97, clear the flag and `break`
(return `false`); if none does, the flag survives (`true`). -/
def compareLoop (align : Aligner) (sequence : String) :
    List (String × Nat) → Bool
  | [] => true
  | (otu_sequence, _) :: rest =>
    if 97 < get_identity (align sequence otu_sequence).1 (align sequence otu_sequence).2
    then false
    else compareLoop align sequence rest

/-- The body of the outer loop of `abundance_greedy_clustering` (lines
146–160 of `agc.py`): the candidate is appended to the OTU list iff the flag
survives the inner loop. -/
def agcStep (align : Aligner) (otus_list : List (String × Nat))
    (c : String × Nat) : List (String × Nat) :=
  if compareLoop align c.1 otus_list then otus_list ++ [c] else otus_list

/-- The outer loop of `abundance_greedy_clustering`: a left fold of `agcStep`
over the candidate list, starting from the empty OTU list. -/
def otu_clustering (align : Aligner) (cands : List (String × Nat)) :
    List (String × Nat) :=
  cands.foldl (agcStep align) []

/-- `abundance_greedy_clustering` (lines 132–161 of `agc.py`): dereplicate,
then greedily cluster.  `chunk_size` and `kmer_size` are accepted but unused,
exactly as in the source ("A fournir mais non utilise cette annee"). -/
def abundance_greedy_clustering (align : Aligner) (seqs : List String)
    (minseqlen mincount chunk_size kmer_size : Nat) : List (String × Nat) :=
  otu_clustering align (dereplication_fulllength seqs minseqlen mincount)

/-- The original (unpadded) sequence behind a gap-padded string: the padded
string with the gap character removed.  Used only to state claim C1's reading
of the divisor. -/
def stripGaps (s : String) : String :=
  ⟨s.data.filter (fun c => !(c == '-'))⟩

/-- Claim C1's reading of the Identity Scorer, following the spec's words:
divide by the length of the shorter of the two original unpadded input
sequences.  To be compared with `get_identity`, which embeds the source. -/
def get_identity_claimC1 (s0 s1 : String) : ℚ :=
  ((matchCount s0 s1 : ℚ) /
    ((min (stripGaps s0).length (stripGaps s1).length : Nat) : ℚ)) * 100

/-- A trivial aligner used to instantiate theorems at concrete inputs: it
returns the two sequences unchanged (adequate when they already have equal
length). -/
def idAlign : Aligner := fun a b => (a, b)

/-- A model aligner used to instantiate theorems at concrete inputs: it pads
each sequence with trailing gaps up to the longer length, so both outputs have
length `max a.length b.length`, as the Alignment Provider interface promises. -/
def padAlign : Aligner := fun a b =>
  (⟨a.data ++ List.replicate (max a.length b.length - a.length) '-'⟩,
   ⟨b.data ++ List.replicate (max a.length b.length - b.length) '-'⟩)

/-- A 100-character sequence, used to realise an identity of exactly 97%. -/
def wSeqA : String := ⟨List.replicate 100 'A'⟩

/-- A 100-character sequence differing from `wSeqA` in exactly 3 positions,
so that `get_identity wSeqA wSeqB = 97` exactly. -/
def wSeqB : String := ⟨List.replicate 97 'A' ++ List.replicate 3 'C'⟩

/-! ## Basic facts about the Identity Scorer -/

theorem matchCount_le_min (s0 s1 : String) :
    matchCount s0 s1 ≤ min s0.length s1.length := by
  have h := List.countP_le_length (fun p : Char × Char => p.1 == p.2)
    (l := s0.data.zip s1.data)
  simpa [matchCount, List.length_zip] using h

theorem countP_zip_self (l : List Char) :
    List.countP (fun p : Char × Char => p.1 == p.2) (l.zip l) = l.length := by
  induction l with
  | nil => rfl
  | cons a t ih => simp [List.zip_cons_cons, List.countP_cons, ih]

theorem matchCount_self (s : String) : matchCount s s = s.length :=
  countP_zip_self s.data

theorem length_pos_of_ne_empty {s : String} (h : s ≠ "") : 0 < s.length := by
  rcases s with ⟨l⟩
  cases l with
  | nil => exact absurd (by decide : String.mk [] = "") h
  | cons c t => simp [String.length]

theorem get_identity_nonneg (s0 s1 : String) : 0 ≤ get_identity s0 s1 := by
  unfold get_identity
  positivity

theorem get_identity_le_100 {s0 s1 : String} (h : 0 < min s0.length s1.length) :
    get_identity s0 s1 ≤ 100 := by
  unfold get_identity
  have hq : ((matchCount s0 s1 : ℚ)) ≤ ((min s0.length s1.length : Nat) : ℚ) :=
    Nat.cast_le.mpr (matchCount_le_min s0 s1)
  have hp : (0 : ℚ) < ((min s0.length s1.length : Nat) : ℚ) := by exact_mod_cast h
  have h1 : (matchCount s0 s1 : ℚ) / ((min s0.length s1.length : Nat) : ℚ) ≤ 1 :=
    (div_le_one hp).mpr hq
  calc (matchCount s0 s1 : ℚ) / ((min s0.length s1.length : Nat) : ℚ) * 100
      ≤ 1 * 100 := by nlinarith
    _ = 100 := by norm_num

theorem get_identity_self {s : String} (h : s ≠ "") : get_identity s s = 100 := by
  have hl : 0 < s.length := length_pos_of_ne_empty h
  unfold get_identity
  rw [matchCount_self, min_self,
    div_self (by exact_mod_cast hl.ne' : ((s.length : Nat) : ℚ) ≠ 0), one_mul]

/-! ## Basic facts about the greedy clusterer -/

theorem compareLoop_eq_true_iff (align : Aligner) (s : String) :
    ∀ reps : List (String × Nat), compareLoop align s reps = true ↔
      ∀ r ∈ reps, get_identity (align s r.1).1 (align s r.1).2 ≤ 97
  | [] => by simp [compareLoop]
  | (r0, c0) :: rest => by
    simp only [compareLoop, List.forall_mem_cons]
    by_cases h : 97 < get_identity (align s r0).1 (align s r0).2
    · simp [h, not_le.mpr h]
    · rw [if_neg h, compareLoop_eq_true_iff align s rest]
      simp [not_lt.mp h]

theorem agcStep_eq (align : Aligner) (acc : List (String × Nat)) (c : String × Nat) :
    agcStep align acc c =
      if ∀ r ∈ acc, get_identity (align c.1 r.1).1 (align c.1 r.1).2 ≤ 97
      then acc ++ [c] else acc := by
  unfold agcStep
  by_cases h : ∀ r ∈ acc, get_identity (align c.1 r.1).1 (align c.1 r.1).2 ≤ 97
  · rw [if_pos ((compareLoop_eq_true_iff align c.1 acc).mpr h), if_pos h]
  · rw [if_neg, if_neg h]
    intro hc
    exact h ((compareLoop_eq_true_iff align c.1 acc).mp hc)

theorem foldl_agcStep_isPrefix (align : Aligner) :
    ∀ (cands : List (String × Nat)) (s : List (String × Nat)),
      s <+: List.foldl (agcStep align) s cands
  | [], s => List.prefix_refl s
  | c :: t, s => by
    have h1 : s <+: agcStep align s c := by
      unfold agcStep
      by_cases h : compareLoop align c.1 s = true
      · rw [if_pos h]
        exact List.prefix_append s [c]
      · rw [if_neg h]
    exact h1.trans (foldl_agcStep_isPrefix align t (agcStep align s c))

/-! ## Claim theorems: the Identity Scorer and the clustering step -/

/-- Claim C1, counterexample.  The padded pair `("A-", "AA")` — the global
alignment of the originals `"A"` and `"AA"` — has one matching position; the
spec's formula (divide by the shorter original, of length 1) gives 100, but
`get_identity` divides by the shorter padded string (length 2) and returns 50.
So the Identity Scorer does not divide by the length of the shorter original
unpadded sequence. -/
theorem claim_C1_counterexample :
    stripGaps "A-" = "A" ∧ stripGaps "AA" = "AA" ∧
    get_identity "A-" "AA" = 50 ∧ get_identity_claimC1 "A-" "AA" = 100 ∧
    get_identity "A-" "AA" ≠ get_identity_claimC1 "A-" "AA" := by
  have h1 : matchCount "A-" "AA" = 1 := by decide
  have h2 : ("A-" : String).length = 2 := by decide
  have h3 : ("AA" : String).length = 2 := by decide
  have h4 : (stripGaps "A-").length = 1 := by decide
  have h5 : (stripGaps "AA").length = 2 := by decide
  have hcode : get_identity "A-" "AA" = 50 := by
    rw [get_identity, h1, h2, h3]; norm_num
  have hspec : get_identity_claimC1 "A-" "AA" = 100 := by
    rw [get_identity_claimC1, h1, h4, h5]; norm_num
  refine ⟨by decide, by decide, hcode, hspec, ?_⟩
  rw [hcode, hspec]
  norm_num

/-- Claim C1, amended: `get_identity` returns the number of positions where
the two padded strings have the same character, divided by the length of the
shorter of the two *padded* strings — for the equal-length outputs of global
alignment, the padded alignment length — multiplied by 100. -/
theorem claim_C1 (s0 s1 : String) (h : s0.length = s1.length) :
    get_identity s0 s1 = (matchCount s0 s1 : ℚ) / (s0.length : ℚ) * 100 := by
  unfold get_identity
  rw [h, min_self]

/-- Witness for the amended claim C1 at a concrete equal-length padded pair. -/
theorem claim_C1_witness :
    get_identity "AC" "AA" =
      (matchCount "AC" "AA" : ℚ) / ((("AC" : String).length : Nat) : ℚ) * 100 :=
  claim_C1 "AC" "AA" (by decide)

/-- Claim C3: the Greedy Clusterer is the left fold, in candidate-list order,
of the step that appends a candidate iff no existing representative has
identity strictly above 97 with it; and the inner comparison loop (which walks
representatives oldest-first and stops at the first one exceeding the
threshold) rejects the candidate iff such a representative exists. -/
theorem claim_C3 (align : Aligner) :
    (∀ cands : List (String × Nat),
      otu_clustering align cands =
        cands.foldl (fun acc c =>
          if ∀ r ∈ acc, get_identity (align c.1 r.1).1 (align c.1 r.1).2 ≤ 97
          then acc ++ [c] else acc) []) ∧
    (∀ (s : String) (reps : List (String × Nat)),
      compareLoop align s reps = false ↔
        ∃ r ∈ reps, 97 < get_identity (align s r.1).1 (align s r.1).2) := by
  constructor
  · intro cands
    unfold otu_clustering
    congr 1
    funext acc c
    exact agcStep_eq align acc c
  · intro s reps
    rw [Bool.eq_false_iff, Ne, compareLoop_eq_true_iff]
    push_neg
    rfl

/-- Claim C4: a candidate whose identity against every existing representative
is at most 97 (in particular, exactly 97) is appended as a new representative:
the acceptance test is strict greater-than. -/
theorem claim_C4 (align : Aligner) (reps : List (String × Nat)) (c : String × Nat)
    (h : ∀ r ∈ reps, get_identity (align c.1 r.1).1 (align c.1 r.1).2 ≤ 97) :
    agcStep align reps c = reps ++ [c] := by
  rw [agcStep_eq, if_pos h]

/-- Witness for claim C4 at a concrete input where the identity against the
single existing representative is exactly 97. -/
theorem claim_C4_witness :
    get_identity wSeqA wSeqB = 97 ∧
    agcStep idAlign [(wSeqB, 5)] (wSeqA, 3) = [(wSeqB, 5), (wSeqA, 3)] := by
  have h97 : get_identity wSeqA wSeqB = 97 := by
    have h1 : matchCount wSeqA wSeqB = 97 := by decide
    have h2 : wSeqA.length = 100 := by decide
    have h3 : wSeqB.length = 100 := by decide
    rw [get_identity, h1, h2, h3]
    norm_num
  have h : ∀ r ∈ [(wSeqB, 5)],
      get_identity (idAlign (wSeqA, 3).1 r.1).1 (idAlign (wSeqA, 3).1 r.1).2 ≤ 97 := by
    intro r hr
    rw [List.mem_singleton] at hr
    subst hr
    rw [show idAlign (wSeqA, 3).1 (wSeqB, 5).1 = (wSeqA, wSeqB) from rfl]
    rw [h97]
  exact ⟨h97, claim_C4 idAlign [(wSeqB, 5)] (wSeqA, 3) h⟩

/-- Claim C5: for equal-length non-empty padded pairs the Identity Scorer's
output lies in `[0, 100]`, and a non-empty sequence aligned to itself
unchanged scores exactly 100. -/
theorem claim_C5 :
    (∀ s0 s1 : String, s0.length = s1.length → s0 ≠ "" →
      0 ≤ get_identity s0 s1 ∧ get_identity s0 s1 ≤ 100) ∧
    (∀ s : String, s ≠ "" → get_identity s s = 100) := by
  constructor
  · intro s0 s1 hl h0
    have hpos : 0 < s0.length := length_pos_of_ne_empty h0
    refine ⟨get_identity_nonneg s0 s1, get_identity_le_100 ?_⟩
    exact lt_min hpos (hl ▸ hpos)
  · intro s h
    exact get_identity_self h

/-- Witness for claim C5 at concrete inputs. -/
theorem claim_C5_witness :
    (0 ≤ get_identity "AC" "AA" ∧ get_identity "AC" "AA" ≤ 100) ∧
    get_identity "AB" "AB" = 100 :=
  ⟨claim_C5.1 "AC" "AA" (by decide) (by decide), claim_C5.2 "AB" (by decide)⟩

/-- Claim C6: the OTU Set is append-only.  From any intermediate OTU list `s`,
the rest of the run only extends it (`s` is a prefix of the fold's result), so
the size never decreases and every representative keeps its index, sequence
and count; in particular the result for a candidate list is a prefix of the
result for any extension of that list. -/
theorem claim_C6 (align : Aligner) (s cands more : List (String × Nat)) :
    s <+: List.foldl (agcStep align) s cands ∧
    otu_clustering align cands <+: otu_clustering align (cands ++ more) := by
  refine ⟨foldl_agcStep_isPrefix align cands s, ?_⟩
  unfold otu_clustering
  rw [List.foldl_append]
  exact foldl_agcStep_isPrefix align more _

/-- Claim C10: `abundance_greedy_clustering` ignores `chunk_size` and
`kmer_size` entirely — any two choices give identical OTU lists. -/
theorem claim_C10 (align : Aligner) (seqs : List String)
    (minseqlen mincount cs1 ks1 cs2 ks2 : Nat) :
    abundance_greedy_clustering align seqs minseqlen mincount cs1 ks1 =
      abundance_greedy_clustering align seqs minseqlen mincount cs2 ks2 := rfl

/-! ## Facts about the reader's filter, the counter and the dereplicator -/

theorem mem_read_fasta (seqs : List String) (m : Nat) (s : String) :
    s ∈ read_fasta seqs m ↔ s ∈ seqs ∧ s ≠ "" ∧ m ≤ s.length := by
  unfold read_fasta
  simp [List.mem_filter, Bool.and_eq_true, and_assoc]

theorem count_read_fasta (seqs : List String) (m : Nat) {s : String}
    (h0 : s ≠ "") (hm : m ≤ s.length) :
    (read_fasta seqs m).count s = seqs.count s := by
  unfold read_fasta
  exact List.count_filter (by simp [h0, hm])

theorem fok_mem (l : List String) (x : String) :
    x ∈ firstOccKeys l ↔ x ∈ l := by
  induction l with
  | nil => simp [firstOccKeys]
  | cons s t ih =>
    by_cases hxs : x = s
    · subst hxs
      simp [firstOccKeys]
    · simp [firstOccKeys, List.mem_filter, ih, hxs]

theorem fok_nodup (l : List String) : (firstOccKeys l).Nodup := by
  induction l with
  | nil => simp [firstOccKeys]
  | cons s t ih =>
    rw [firstOccKeys, List.nodup_cons]
    constructor
    · intro hmem
      have := (List.mem_filter.mp hmem).2
      simp at this
    · exact List.Nodup.filter _ ih

theorem counter_mem (xs : List String) (s : String) (c : Nat) :
    (s, c) ∈ counter xs ↔ s ∈ xs ∧ c = xs.count s := by
  unfold counter
  rw [List.mem_map]
  constructor
  · rintro ⟨k, hk, heq⟩
    rw [Prod.ext_iff] at heq
    obtain ⟨hk1, hk2⟩ := heq
    subst hk1
    exact ⟨(fok_mem xs k).mp hk, hk2.symm⟩
  · rintro ⟨hs, rfl⟩
    exact ⟨s, (fok_mem xs s).mpr hs, rfl⟩

theorem counter_map_fst (xs : List String) :
    (counter xs).map Prod.fst = firstOccKeys xs := by
  unfold counter
  rw [List.map_map]
  exact List.map_id _

theorem derep_mem (seqs : List String) (m n : Nat) (s : String) (c : Nat) :
    (s, c) ∈ dereplication_fulllength seqs m n ↔
      s ∈ seqs ∧ s ≠ "" ∧ m ≤ s.length ∧ n ≤ c ∧ c = seqs.count s := by
  unfold dereplication_fulllength
  rw [List.mem_insertionSort, List.mem_filter, counter_mem]
  constructor
  · rintro ⟨⟨hmem, rfl⟩, hn⟩
    obtain ⟨hs, h0, hm⟩ := (mem_read_fasta seqs m s).mp hmem
    refine ⟨hs, h0, hm, by simpa using hn, (count_read_fasta seqs m h0 hm).symm ▸ rfl⟩
  · rintro ⟨hs, h0, hm, hn, rfl⟩
    refine ⟨⟨(mem_read_fasta seqs m s).mpr ⟨hs, h0, hm⟩, ?_⟩, by simpa using hn⟩
    exact (count_read_fasta seqs m h0 hm).symm

theorem derep_sorted (seqs : List String) (m n : Nat) :
    List.Pairwise (fun a b : String × Nat => b.2 ≤ a.2)
      (dereplication_fulllength seqs m n) :=
  List.sorted_insertionSort countGE _

theorem derep_nodup_fst (seqs : List String) (m n : Nat) :
    ((dereplication_fulllength seqs m n).map Prod.fst).Nodup := by
  unfold dereplication_fulllength
  have hperm :
      ((List.insertionSort countGE
        ((counter (read_fasta seqs m)).filter (fun p => decide (n ≤ p.2)))).map
          Prod.fst).Perm
      (((counter (read_fasta seqs m)).filter (fun p => decide (n ≤ p.2))).map
          Prod.fst) :=
    (List.perm_insertionSort countGE _).map Prod.fst
  refine hperm.symm.nodup ?_
  have hsub :
      (((counter (read_fasta seqs m)).filter (fun p => decide (n ≤ p.2))).map
          Prod.fst).Sublist
      ((counter (read_fasta seqs m)).map Prod.fst) :=
    (List.filter_sublist _).map Prod.fst
  rw [counter_map_fst] at hsub
  exact hsub.nodup (fok_nodup _)

/-! ## Claim theorems: the dereplicator -/

/-- Claim C2, counterexample.  With `minseqlen = 0` and `mincount = 1`, an
input consisting of one empty record yields an empty Candidate List, although
the empty sequence occurs once (count ≥ mincount) and has length ≥ minseqlen:
the reader drops empty sequences unconditionally (`if sequence:`), so the
claim's "exactly the distinct sequences with count ≥ mincount and length ≥
minseqlen" fails at the empty sequence. -/
theorem claim_C2_counterexample :
    dereplication_fulllength [""] 0 1 = [] ∧
    ("" : String) ∈ [""] ∧ (0 : Nat) ≤ ("" : String).length ∧
    1 ≤ List.count "" [""] := by
  refine ⟨by decide, by decide, by decide, by decide⟩

/-- Claim C2, amended: the Candidate List contains exactly the distinct
*non-empty* sequences whose occurrence count is at least `mincount` and whose
length is at least `minseqlen` (the reader drops empty records even when
`minseqlen = 0`), each paired with its true occurrence count, with no
duplicated sequence, sorted by count descending. -/
theorem claim_C2 (seqs : List String) (minseqlen mincount : Nat) :
    (∀ (s : String) (c : Nat),
      (s, c) ∈ dereplication_fulllength seqs minseqlen mincount ↔
        s ∈ seqs ∧ s ≠ "" ∧ minseqlen ≤ s.length ∧ mincount ≤ c ∧
          c = seqs.count s) ∧
    List.Pairwise (fun a b : String × Nat => b.2 ≤ a.2)
      (dereplication_fulllength seqs minseqlen mincount) ∧
    ((dereplication_fulllength seqs minseqlen mincount).map Prod.fst).Nodup :=
  ⟨fun s c => derep_mem seqs minseqlen mincount s c,
   derep_sorted seqs minseqlen mincount,
   derep_nodup_fst seqs minseqlen mincount⟩

/-- Claim C7: when no sequence passes the length filter, or none of the
counted sequences reaches `mincount` (the empty input included), the Candidate
List is empty and the clustering result is empty — all functions are total, so
no error is raised. -/
theorem claim_C7 (seqs : List String) (m n : Nat) (align : Aligner) (cs ks : Nat)
    (h : read_fasta seqs m = [] ∨ ∀ p ∈ counter (read_fasta seqs m), p.2 < n) :
    dereplication_fulllength seqs m n = [] ∧
    abundance_greedy_clustering align seqs m n cs ks = [] := by
  have hfc : (counter (read_fasta seqs m)).filter (fun p => decide (n ≤ p.2)) = [] := by
    rcases h with h | h
    · rw [h]
      rfl
    · rw [List.filter_eq_nil_iff]
      intro p hp
      simp [Nat.not_le.mpr (h p hp)]
  have hd : dereplication_fulllength seqs m n = [] := by
    unfold dereplication_fulllength
    rw [hfc]
    rfl
  refine ⟨hd, ?_⟩
  unfold abundance_greedy_clustering
  rw [hd]
  rfl

/-- Witness for claim C7 at the empty input stream. -/
theorem claim_C7_witness :
    dereplication_fulllength [] 0 0 = [] ∧
    abundance_greedy_clustering idAlign [] 0 0 0 0 = [] :=
  claim_C7 [] 0 0 idAlign 0 0 (Or.inl rfl)

/-! ## Order lemmas for stability of the descending-count sort -/

theorem get_pair_sublist {α : Type} :
    ∀ (l : List α) (i j : Nat) (hij : i < j) (hj : j < l.length),
      [l.get ⟨i, Nat.lt_trans hij hj⟩, l.get ⟨j, hj⟩].Sublist l
  | [], i, j, hij, hj => absurd hj (by simp)
  | a :: t, i, 0, hij, hj => absurd hij (Nat.not_lt_zero i)
  | a :: t, 0, j + 1, hij, hj => by
    exact List.Sublist.cons₂ a
      (List.singleton_sublist.mpr (List.get_mem t j (Nat.lt_of_succ_lt_succ hj)))
  | a :: t, i + 1, j + 1, hij, hj => by
    exact List.Sublist.cons a
      (get_pair_sublist t i j (Nat.lt_of_succ_lt_succ hij) (Nat.lt_of_succ_lt_succ hj))

theorem pair_sublist_or {α : Type} (a b : α) (hne : a ≠ b) :
    ∀ l : List α, a ∈ l → b ∈ l → [a, b].Sublist l ∨ [b, a].Sublist l := by
  intro l
  induction l with
  | nil => intro h; cases h
  | cons x t ih =>
    intro ha hb
    by_cases hax : a = x
    · subst hax
      left
      have hbt : b ∈ t := by
        rcases List.mem_cons.mp hb with h | h
        · exact absurd h.symm hne
        · exact h
      exact List.Sublist.cons₂ a (List.singleton_sublist.mpr hbt)
    · by_cases hbx : b = x
      · subst hbx
        right
        have hat : a ∈ t := by
          rcases List.mem_cons.mp ha with h | h
          · exact absurd h hax
          · exact h
        exact List.Sublist.cons₂ b (List.singleton_sublist.mpr hat)
      · have hat : a ∈ t := by
          rcases List.mem_cons.mp ha with h | h
          · exact absurd h hax
          · exact h
        have hbt : b ∈ t := by
          rcases List.mem_cons.mp hb with h | h
          · exact absurd h hbx
          · exact h
        rcases ih hat hbt with h | h
        · exact Or.inl (h.cons x)
        · exact Or.inr (h.cons x)

theorem pair_nodup_contra {α : Type} (a b : α) :
    ∀ l : List α, l.Nodup → [a, b].Sublist l → [b, a].Sublist l → False := by
  intro l
  induction l with
  | nil =>
    intro _ h1 _
    simp at h1
  | cons x t ih =>
    intro hnd h1 h2
    obtain ⟨hx, hndt⟩ := List.nodup_cons.mp hnd
    cases h1 with
    | cons _ h1' =>
      cases h2 with
      | cons _ h2' => exact ih hndt h1' h2'
      | cons₂ _ h2' =>
        exact hx (h1'.subset (by simp))
    | cons₂ _ h1' =>
      cases h2 with
      | cons _ h2' =>
        exact hx (h2'.subset (by simp))
      | cons₂ _ h2' =>
        exact hx (List.singleton_sublist.mp h2')

theorem fok_pair_indexOf :
    ∀ (l : List String) (x y : String), [x, y].Sublist (firstOccKeys l) →
      x ≠ y ∧ x ∈ l ∧ y ∈ l ∧ List.indexOf x l < List.indexOf y l := by
  intro l
  induction l with
  | nil =>
    intro x y h
    rw [show firstOccKeys [] = [] from rfl] at h
    simp at h
  | cons s t ih =>
    intro x y h
    have h2 : [x, y].Sublist (s :: (firstOccKeys t).filter (fun u => !(u == s))) := h
    cases h2 with
    | cons₂ _ h' =>
      have hyK : y ∈ (firstOccKeys t).filter (fun u => !(u == s)) :=
        List.singleton_sublist.mp h'
      obtain ⟨hyk, hys⟩ := List.mem_filter.mp hyK
      have hysne : y ≠ s := by simpa using hys
      have hyt : y ∈ t := (fok_mem t y).mp hyk
      refine ⟨hysne.symm, List.mem_cons_self s t, List.mem_cons_of_mem s hyt, ?_⟩
      rw [List.indexOf_cons_self, List.indexOf_cons_ne t hysne.symm]
      exact Nat.succ_pos _
    | cons _ h' =>
      have hsub : [x, y].Sublist (firstOccKeys t) := h'.trans (List.filter_sublist _)
      obtain ⟨hne, hxt, hyt, hlt⟩ := ih x y hsub
      have hxK : x ∈ (firstOccKeys t).filter (fun u => !(u == s)) :=
        h'.subset (by simp)
      have hyK : y ∈ (firstOccKeys t).filter (fun u => !(u == s)) :=
        h'.subset (by simp)
      have hxs : x ≠ s := by simpa using (List.mem_filter.mp hxK).2
      have hys : y ≠ s := by simpa using (List.mem_filter.mp hyK).2
      refine ⟨hne, List.mem_cons_of_mem s hxt, List.mem_cons_of_mem s hyt, ?_⟩
      rw [List.indexOf_cons_ne t hxs.symm, List.indexOf_cons_ne t hys.symm]
      exact Nat.succ_lt_succ hlt

theorem indexOf_filter_lt (p : String → Bool) :
    ∀ (l : List String) (x y : String), x ∈ l.filter p → y ∈ l.filter p →
      x ≠ y → List.indexOf x (l.filter p) < List.indexOf y (l.filter p) →
      List.indexOf x l < List.indexOf y l := by
  intro l
  induction l with
  | nil =>
    intro x y hx
    simp at hx
  | cons h t ih =>
    intro x y hx hy hne hlt
    by_cases hp : p h = true
    · have hfeq : (h :: t).filter p = h :: t.filter p := by
        simp [List.filter_cons, hp]
      rw [hfeq] at hx hy hlt
      by_cases hxh : x = h
      · subst hxh
        rw [List.indexOf_cons_self, List.indexOf_cons_ne t hne]
        exact Nat.succ_pos _
      · by_cases hyh : y = h
        · subst hyh
          rw [List.indexOf_cons_self] at hlt
          exact absurd hlt (Nat.not_lt_zero _)
        · rw [List.indexOf_cons_ne (t.filter p) (Ne.symm hxh),
            List.indexOf_cons_ne (t.filter p) (Ne.symm hyh)] at hlt
          rw [List.indexOf_cons_ne t (Ne.symm hxh),
            List.indexOf_cons_ne t (Ne.symm hyh)]
          have hx' : x ∈ t.filter p := by
            rcases List.mem_cons.mp hx with h' | h'
            · exact absurd h' hxh
            · exact h'
          have hy' : y ∈ t.filter p := by
            rcases List.mem_cons.mp hy with h' | h'
            · exact absurd h' hyh
            · exact h'
          exact Nat.succ_lt_succ (ih x y hx' hy' hne (Nat.lt_of_succ_lt_succ hlt))
    · have hfeq : (h :: t).filter p = t.filter p := by
        simp [List.filter_cons, hp]
      rw [hfeq] at hx hy hlt
      have hxh : x ≠ h := fun e => hp (e ▸ (List.mem_filter.mp hx).2)
      have hyh : y ≠ h := fun e => hp (e ▸ (List.mem_filter.mp hy).2)
      rw [List.indexOf_cons_ne t (Ne.symm hxh), List.indexOf_cons_ne t (Ne.symm hyh)]
      exact Nat.succ_lt_succ (ih x y hx hy hne hlt)

/-! ## Claim theorems: tie-breaking order and scorer safety -/

/-- Claim C9: candidates with equal counts appear in the Candidate List in the
order of the first occurrence of their sequence in the input stream — the
counter's keys are in first-insertion order, the descending-count sort is
stable, and the reader's filter preserves relative order. -/
theorem claim_C9 (seqs : List String) (m n : Nat) (i j : Nat)
    (hi : i < (dereplication_fulllength seqs m n).length)
    (hj : j < (dereplication_fulllength seqs m n).length)
    (hij : i < j)
    (hcount : ((dereplication_fulllength seqs m n).get ⟨i, hi⟩).2 =
              ((dereplication_fulllength seqs m n).get ⟨j, hj⟩).2) :
    List.indexOf ((dereplication_fulllength seqs m n).get ⟨i, hi⟩).1 seqs <
      List.indexOf ((dereplication_fulllength seqs m n).get ⟨j, hj⟩).1 seqs := by
  set L := dereplication_fulllength seqs m n with hL
  set a := L.get ⟨i, hi⟩ with ha
  set b := L.get ⟨j, hj⟩ with hb
  have hmapnd : (L.map Prod.fst).Nodup := derep_nodup_fst seqs m n
  have hnd : L.Nodup := List.Nodup.of_map Prod.fst hmapnd
  have habL : [a, b].Sublist L := get_pair_sublist L i j hij hj
  have habfst : [a.1, b.1].Sublist (L.map Prod.fst) := by
    simpa using habL.map Prod.fst
  have hfstne : a.1 ≠ b.1 := by
    have hnd2 : [a.1, b.1].Nodup := habfst.nodup hmapnd
    simpa using hnd2
  have hane : a ≠ b := fun e => hfstne (e ▸ rfl)
  have hLdef : L = List.insertionSort countGE
      ((counter (read_fasta seqs m)).filter (fun p => decide (n ≤ p.2))) := rfl
  have haf : a ∈ (counter (read_fasta seqs m)).filter (fun p => decide (n ≤ p.2)) := by
    have hmem : a ∈ L := List.get_mem L i hi
    rw [hLdef] at hmem
    exact (List.mem_insertionSort countGE).mp hmem
  have hbf : b ∈ (counter (read_fasta seqs m)).filter (fun p => decide (n ≤ p.2)) := by
    have hmem : b ∈ L := List.get_mem L j hj
    rw [hLdef] at hmem
    exact (List.mem_insertionSort countGE).mp hmem
  have habfc : [a, b].Sublist
      ((counter (read_fasta seqs m)).filter (fun p => decide (n ≤ p.2))) := by
    rcases pair_sublist_or a b hane _ haf hbf with h | h
    · exact h
    · exfalso
      have hst : [b, a].Sublist L := by
        rw [hLdef]
        exact List.pair_sublist_insertionSort (le_of_eq hcount) h
      exact pair_nodup_contra b a L hnd hst habL
  have habctr : [a, b].Sublist (counter (read_fasta seqs m)) :=
    habfc.trans (List.filter_sublist _)
  have habkeys : [a.1, b.1].Sublist (firstOccKeys (read_fasta seqs m)) := by
    have hmap := habctr.map Prod.fst
    rw [counter_map_fst] at hmap
    simpa using hmap
  obtain ⟨hne', hxm, hym, hltflt⟩ :=
    fok_pair_indexOf (read_fasta seqs m) a.1 b.1 habkeys
  exact indexOf_filter_lt _ seqs a.1 b.1 hxm hym hne' hltflt

/-- Witness for claim C9: two distinct sequences with equal counts keep their
input order in the Candidate List. -/
theorem claim_C9_witness :
    List.indexOf ((dereplication_fulllength ["AB", "AC"] 1 1).get
        ⟨0, by decide⟩).1 ["AB", "AC"] <
      List.indexOf ((dereplication_fulllength ["AB", "AC"] 1 1).get
        ⟨1, by decide⟩).1 ["AB", "AC"] :=
  claim_C9 ["AB", "AC"] 1 1 0 1 (by decide) (by decide) (by decide) (by decide)

theorem padAlign_spec (a b : String) :
    max a.length b.length ≤ (padAlign a b).1.length ∧
    max a.length b.length ≤ (padAlign a b).2.length := by
  have hda : a.data.length = a.length := rfl
  have hdb : b.data.length = b.length := rfl
  constructor
  · show max a.length b.length ≤
      (a.data ++ List.replicate (max a.length b.length - a.length) '-').length
    rw [List.length_append, List.length_replicate]
    have h := le_max_left a.length b.length
    omega
  · show max a.length b.length ≤
      (b.data ++ List.replicate (max a.length b.length - b.length) '-').length
    rw [List.length_append, List.length_replicate]
    have h := le_max_right a.length b.length
    omega

/-- Claim C8: every sequence yielded by the reader is non-empty; and whenever
the aligner satisfies the Alignment Provider contract (both padded outputs at
least as long as the longer input), every invocation of the Identity Scorer
during a clustering run — any candidate of the Candidate List against any
representative of any reachable OTU list — has a positive minimum padded
length, so `get_identity` never divides by zero. -/
theorem claim_C8 (seqs : List String) (m n : Nat) (align : Aligner)
    (hAlign : ∀ a b : String, max a.length b.length ≤ (align a b).1.length ∧
        max a.length b.length ≤ (align a b).2.length) :
    (∀ s ∈ read_fasta seqs m, s ≠ "") ∧
    (∀ c ∈ dereplication_fulllength seqs m n, ∀ k : Nat,
      ∀ r ∈ otu_clustering align ((dereplication_fulllength seqs m n).take k),
        0 < min (align c.1 r.1).1.length (align c.1 r.1).2.length) := by
  constructor
  · intro s hs
    exact ((mem_read_fasta seqs m s).mp hs).2.1
  · intro c hc k r hr
    have hcs : c.1 ≠ "" := by
      rcases c with ⟨s, cnt⟩
      exact ((derep_mem seqs m n s cnt).mp hc).2.1
    have hpos : 0 < c.1.length := length_pos_of_ne_empty hcs
    have hmax : 0 < max c.1.length r.1.length :=
      lt_of_lt_of_le hpos (le_max_left _ _)
    exact lt_min (lt_of_lt_of_le hmax (hAlign c.1 r.1).1)
      (lt_of_lt_of_le hmax (hAlign c.1 r.1).2)

/-- Witness for claim C8 at a concrete run with the padding model aligner. -/
theorem claim_C8_witness :
    (∀ s ∈ read_fasta ["A"] 1, s ≠ "") ∧
    0 < min (padAlign "A" "A").1.length (padAlign "A" "A").2.length := by
  refine ⟨(claim_C8 ["A"] 1 1 padAlign padAlign_spec).1, ?_⟩
  exact (claim_C8 ["A"] 1 1 padAlign padAlign_spec).2 ("A", 1) (by decide) 1
    ("A", 1) (by decide)

end AGC
